import Mathlib

/-!
Verification development for the `rs_document` repository.

Strings are modelled as `List Char` (a Python `str` is a sequence of Unicode
scalar values, and Lean's `Char` is a Unicode scalar value).  The text
cleaners are translated from `src/python/rs_document/post_processors.py`;
regular-expression operations are hand-translated into character-list
functions with Python `re` semantics (leftmost scan, greedy quantifiers,
capture groups included in `re.split` output).
-/

/-- The set of characters Python's `str.isspace` / regex `\s` (unicode mode)
accepts: `Py_UNICODE_ISSPACE`. -/
def pySpaceCodes : List Nat :=
  [0x9, 0xA, 0xB, 0xC, 0xD, 0x1C, 0x1D, 0x1E, 0x1F, 0x20, 0x85, 0xA0,
   0x1680, 0x2000, 0x2001, 0x2002, 0x2003, 0x2004, 0x2005, 0x2006, 0x2007,
   0x2008, 0x2009, 0x200A, 0x2028, 0x2029, 0x202F, 0x205F, 0x3000]

def isPySpace (c : Char) : Bool := pySpaceCodes.contains c.toNat

/-- Python `str.strip()`: drop whitespace from both ends. -/
def pyStrip (l : List Char) : List Char :=
  ((l.dropWhile isPySpace).reverse.dropWhile isPySpace).reverse

/-- `UNICODE_BULLETS` from `post_processors.py` (code points; `\*` in the
regex source matches a literal `*`, and `\x95` duplicates `\u0095`). -/
def bulletCodes : List Nat :=
  [0x95, 0x2022, 0x2023, 0x2043, 0x3164, 0x204C, 0x204D, 0x2219, 0x25CB,
   0x25CF, 0x25D8, 0x25E6, 0x2619, 0x2765, 0x2767, 0x29BE, 0x29BF, 0x2D,
   0xF0B7, 0x2A, 0xB7]

def isBullet (c : Char) : Bool := bulletCodes.contains c.toNat

/-- Prepend a character to the first piece of a piece list. -/
def consHead (c : Char) : List (List Char) → List (List Char)
  | [] => [[c]]
  | p :: ps => (c :: p) :: ps

/-- Prepend a run of characters to the first piece of a piece list. -/
def consRun (run : List Char) : List (List Char) → List (List Char)
  | [] => [run]
  | p :: ps => (run ++ p) :: ps

/-- `re.split(r"(?<=\n)", text)`: cut after every newline
(`LINE_BREAK_RE` in `post_processors.py`). -/
def splitAfterNewlines : List Char → List (List Char)
  | [] => [[]]
  | c :: rest =>
    if c = '\n' then [c] :: splitAfterNewlines rest
    else consHead c (splitAfterNewlines rest)

/-- Whether a suffix starts with a whitespace character (the `(?=\s)`
look-ahead). -/
def headIsSpace : List Char → Bool
  | d :: _ => isPySpace d
  | [] => false

/-- `re.sub(E_BULLET_PATTERN, "·", p)`: replace a line-leading `e` that is
followed by a whitespace character with U+00B7 (`^e(?=\s)`, multiline).
The Boolean argument records whether the scan is at a line start. -/
def eBulletSubAux : Bool → List Char → List Char
  | _, [] => []
  | atStart, c :: rest =>
    if atStart ∧ c = 'e' ∧ headIsSpace rest then
      Char.ofNat 0xB7 :: eBulletSubAux false rest
    else c :: eBulletSubAux (c = '\n') rest

def eBulletSub (l : List Char) : List Char := eBulletSubAux true l

/-- `E_BULLET_PATTERN.match(p)`: the pattern `^e(?=\s)` anchored at the
start of the string. -/
def eBulletMatch : List Char → Bool
  | 'e' :: d :: _ => isPySpace d
  | _ => false

/-- `UNICODE_BULLETS_RE.match(p)`: a bullet character at position 0 that is
not immediately followed by another bullet (`(?:B)(?!B)`). -/
def bulletsMatch : List Char → Bool
  | [] => false
  | [c] => isBullet c
  | c :: d :: _ => isBullet c && !isBullet d

/-- `re.split(UNICODE_BULLETS_RE_0W, p)`: zero-width split before every
bullet character that is not preceded by a bullet (`(?=B)(?<!B)`). -/
def bulletSplit0WAux : Bool → List Char → List (List Char)
  | _, [] => [[]]
  | prevIsBullet, c :: rest =>
    let tail := bulletSplit0WAux (isBullet c) rest
    if isBullet c ∧ ¬ prevIsBullet then [] :: consHead c tail
    else consHead c tail

def bulletSplit0W (l : List Char) : List (List Char) := bulletSplit0WAux false l

/-- `re.sub(PARAGRAPH_PATTERN, " ", text)` where `PARAGRAPH_PATTERN` is
`\s*\n\s*`: every maximal whitespace run that contains at least one newline
is replaced by a single space.  Fuel-structural so it reduces in the kernel;
the fuel is the length of the list. -/
def collapseNLRunsAux : Nat → List Char → List Char
  | 0, l => l
  | fuel + 1, l =>
    match l with
    | [] => []
    | c :: rest =>
      if isPySpace c then
        let run := List.takeWhile isPySpace (c :: rest)
        let after := List.dropWhile isPySpace (c :: rest)
        (if run.contains '\n' then [' '] else run) ++ collapseNLRunsAux fuel after
      else c :: collapseNLRunsAux fuel rest

def collapseNLRuns (l : List Char) : List Char := collapseNLRunsAux l.length l

/-- The negative look-ahead `(?!BULLETS|$)` of `PARAGRAPH_PATTERN_RE`: it
passes at a position unless the remaining text is empty, equals a final
`"\n"` (Python `$` also matches just before a trailing newline), or starts
with a bullet character. -/
def lookPass : List Char → Bool
  | [] => false
  | ['\n'] => false
  | c :: _ => !isBullet c

/-- Extent of a `\s*\n\s*` match that starts at the head of the maximal
whitespace run `run` followed by the non-whitespace suffix `after`, under
the look-ahead `(?!BULLETS|$)`.  Returns the number of characters matched,
or `none` when no backtracking choice satisfies the look-ahead.  Greedy
matching covers the whole run; if the look-ahead fails there, the trailing
`\s*` backs off one character at a time, and any end inside the run
succeeds except a position that leaves exactly a final `"\n"`; the match
must still contain the run's first newline. -/
def wsMatchExtent (run after : List Char) : Option Nat :=
  let n1 := run.findIdx (fun c => c = '\n')
  let rl := run.length
  if n1 = rl then none
  else if (match after with | [] => false | a :: _ => !isBullet a) then some rl
  else if n1 + 1 < rl ∧ ¬(after = [] ∧ run.getLast? = some '\n') then some (rl - 1)
  else if n1 + 2 < rl then some (rl - 2)
  else none

/-- `re.split(PARAGRAPH_PATTERN_RE, paragraph)` with the pattern
`((?:BULLETS)|\s*\n\s*)(?!BULLETS|$)`.  The pattern has one capture group,
so Python interleaves the captured separators with the pieces; this
function returns that interleaved list.  Fuel-structural (fuel = length). -/
def paraSplitAux : Nat → List Char → List (List Char)
  | 0, l => [l]
  | fuel + 1, l =>
    match l with
    | [] => [[]]
    | c :: rest =>
      if isBullet c ∧ lookPass rest then
        [] :: [c] :: paraSplitAux fuel rest
      else if isPySpace c then
        let run := List.takeWhile isPySpace (c :: rest)
        let after := List.dropWhile isPySpace (c :: rest)
        match wsMatchExtent run after with
        | some q => [] :: run.take q :: paraSplitAux fuel (run.drop q ++ after)
        | none => consHead c (paraSplitAux fuel rest)
      else consHead c (paraSplitAux fuel rest)

def paraSplit (l : List Char) : List (List Char) := paraSplitAux l.length l

/-- `re.split(DOUBLE_PARAGRAPH_PATTERN_RE, text)` with the pattern
`(\s*\n\s*){2}`: a match is a maximal whitespace run containing at least
two newlines; the (repeated) capture group captures the last repetition,
which runs from the run's last newline to the run's end.  The captures are
interleaved with the pieces.  Fuel-structural (fuel = length). -/
def doubleParaSplitAux : Nat → List Char → List (List Char)
  | 0, l => [l]
  | fuel + 1, l =>
    match l with
    | [] => [[]]
    | c :: rest =>
      if isPySpace c then
        let run := List.takeWhile isPySpace (c :: rest)
        let after := List.dropWhile isPySpace (c :: rest)
        if 2 ≤ (run.filter (fun d => d = '\n')).length then
          let afterLast := (run.reverse.takeWhile (fun d => d ≠ '\n')).reverse
          [] :: ('\n' :: afterLast) :: doubleParaSplitAux fuel after
        else consRun run (doubleParaSplitAux fuel after)
      else consHead c (doubleParaSplitAux fuel rest)

def doubleParaSplit (l : List Char) : List (List Char) :=
  doubleParaSplitAux l.length l

/-- Python `str.split(" ")`: split at every single space, empty fields
kept (`"".split(" ") == [""]`, `"a  b".split(" ") == ["a","","b"]`). -/
def splitOnSpace : List Char → List (List Char)
  | [] => [[]]
  | c :: rest =>
    if c = ' ' then [] :: splitOnSpace rest
    else consHead c (splitOnSpace rest)

def joinNN (ps : List (List Char)) : List Char :=
  List.intercalate ['\n', '\n'] ps

/-- `clean_non_ascii_chars`: `text.encode("ascii", "ignore")` drops every
scalar value above `0x7F`. -/
def clean_non_ascii_chars (l : List Char) : List Char :=
  l.filter (fun c => decide (c.toNat ≤ 0x7F))

/-- The ligature table of `clean_ligatures` (single-character keys). -/
def ligatureTable : List (Nat × List Char) :=
  [(0xE6, ['a', 'e']), (0xC6, ['A', 'E']), (0xFB00, ['f', 'f']),
   (0xFB01, ['f', 'i']), (0xFB02, ['f', 'l']), (0xFB03, ['f', 'f', 'i']),
   (0xFB04, ['f', 'f', 'l']), (0xFB05, ['f', 't']), (0x2AA, ['l', 's']),
   (0x153, ['o', 'e']), (0x152, ['O', 'E']), (0x239, ['q', 'p']),
   (0xFB06, ['s', 't']), (0x2A6, ['t', 's'])]

/-- One `str.replace(k, v)` pass for a single-character pattern `k`. -/
def replaceCharBy (k : Nat) (v : List Char) (l : List Char) : List Char :=
  l.flatMap (fun c => if c.toNat = k then v else [c])

/-- `clean_ligatures`: the fourteen sequential `replace` calls. -/
def clean_ligatures (l : List Char) : List Char :=
  ligatureTable.foldl (fun s kv => replaceCharBy kv.1 kv.2 s) l

/-- `re.sub(r"[\xa0\n]", " ", text)`: first pass of
`clean_extra_whitespace`. -/
def subNlNbsp (l : List Char) : List Char :=
  l.map (fun c => if c = '\n' ∨ c.toNat = 0xA0 then ' ' else c)

/-- `re.sub(r"([ ]{2,})", " ", text)`: every maximal run of two or more
spaces becomes a single space (all but the last space of a run drop). -/
def collapseSpaceRuns : List Char → List Char
  | [] => []
  | [c] => [c]
  | c :: d :: rest =>
    if c = ' ' ∧ d = ' ' then collapseSpaceRuns (d :: rest)
    else c :: collapseSpaceRuns (d :: rest)

/-- `clean_extra_whitespace` from `post_processors.py`. -/
def clean_extra_whitespace (l : List Char) : List Char :=
  pyStrip (collapseSpaceRuns (subNlNbsp l))

/-- `group_bullet_paragraph` from `post_processors.py`. -/
def group_bullet_paragraph (para : List Char) : List (List Char) :=
  let p := pyStrip (eBulletSub para)
  ((bulletSplit0W p).filter (fun b => !b.isEmpty)).map collapseNLRuns

/-- The body of the `for paragraph in paragraphs` loop of
`group_broken_paragraphs`: skip blank paragraphs, delegate
bullet-or-`e`-led paragraphs to `group_bullet_paragraph`, keep the
non-blank `para_split` pieces when all pieces are short
(`len(line.strip().split(" ")) < 5`), otherwise collapse the paragraph's
newline runs. -/
def gbpStep (acc : List (List Char)) (para : List Char) : List (List Char) :=
  if (pyStrip para).isEmpty then acc
  else
    let pieces := paraSplit para
    let allShort := pieces.all (fun line => (splitOnSpace (pyStrip line)).length < 5)
    if bulletsMatch (pyStrip para) ∨ eBulletMatch (pyStrip para) then
      acc ++ group_bullet_paragraph para
    else if allShort then
      acc ++ pieces.filter (fun line => !(pyStrip line).isEmpty)
    else acc ++ [collapseNLRuns para]

/-- `group_broken_paragraphs` from `post_processors.py`. -/
def group_broken_paragraphs (text : List Char) : List Char :=
  joinNN ((doubleParaSplit text).foldl gbpStep [])

/-- `new_line_grouper` from `post_processors.py`. -/
def new_line_grouper (text : List Char) : List Char :=
  joinNN ((splitAfterNewlines text).filter (fun p => !(pyStrip p).isEmpty))

/-- `blank_line_grouper` from `post_processors.py` (delegates). -/
def blank_line_grouper (text : List Char) : List Char :=
  group_broken_paragraphs text

/-- `auto_paragraph_grouper` from `post_processors.py`.  The source
compares the float `empty_line_count / line_count` against `0.1`; for the
rationals `e/c` arising here (`c ≤ 2000`) the correctly rounded float
comparison agrees exactly with `10 * e < c`, which is how it is stated. -/
def auto_paragraph_grouper (text : List Char) : List Char :=
  let lines := splitAfterNewlines text
  let maxLC := min lines.length 2000
  let counted := lines.take maxLC
  let emptyCount := (counted.filter (fun l => (pyStrip l).isEmpty)).length
  if 10 * emptyCount < counted.length then new_line_grouper text
  else blank_line_grouper text

/-- `UNSTRUCTURED_POST_PROCESSORS`: the fixed cleaner pipeline, in source
order. -/
def UNSTRUCTURED_POST_PROCESSORS : List (List Char → List Char) :=
  [clean_extra_whitespace, clean_ligatures, clean_non_ascii_chars,
   blank_line_grouper, new_line_grouper, group_broken_paragraphs,
   auto_paragraph_grouper]

/-- Apply the full cleaner pipeline to a content string. -/
def cleanContent (l : List Char) : List Char :=
  UNSTRUCTURED_POST_PROCESSORS.foldl (fun s f => f s) l

/-- Modelled from the spec: the `Document` value of §4.5 (the Rust
implementation `src/lib.rs` exposing `Document` is not in the source tree).
`content` is a Unicode scalar-value sequence, `metadata` an ordered
string-to-string map. -/
structure Document where
  content : List Char
  metadata : List (String × String)
deriving DecidableEq

/-- Modelled from the spec: the error taxonomy of §7 (the Rust
implementation is not in the source tree).  `InvalidArgument` carries the
offending parameter name and value. -/
inductive PipelineError where
  | invalidArgument (param : String) (value : Int)
deriving DecidableEq

/-- Modelled from the spec: one Document-level cleaner call of §4.5/§6
(the Rust implementation is not in the source tree): a cleaner rewrites
`content` in place and does not touch `metadata`. -/
def applyCleanerDoc (f : List Char → List Char) (d : Document) : Document :=
  { content := f d.content, metadata := d.metadata }

/-- Chunk a character list into windows of exactly `n` scalars, the last
possibly shorter; fuel-structural (fuel = length). -/
def splitEveryNAux (n : Nat) : Nat → List Char → List (List Char)
  | 0, _ => []
  | fuel + 1, l => if l.isEmpty then [] else l.take n :: splitEveryNAux n fuel (l.drop n)

def splitEveryN (n : Nat) (l : List Char) : List (List Char) :=
  splitEveryNAux n l.length l

/-- Modelled from the spec: `Document::split_on_num_characters(n)` of §4.2
and §6 (the Rust implementation is not in the source tree).  Validates
`n > 0` first, then walks the content by Unicode scalar values emitting
chunks of exactly `n` scalars (last may be shorter), no chunks for empty
content, each chunk carrying a clone of the metadata. -/
def splitOnNumCharacters (d : Document) (n : Int) : Except PipelineError (List Document) :=
  if n ≤ 0 then .error (.invalidArgument "n" n)
  else .ok ((splitEveryN n.toNat d.content).map
    (fun c => { content := c, metadata := d.metadata }))

/-- Whether `s` occurs as a contiguous substring of the second list (an
empty `s` occurs everywhere). -/
def occursIn (s : List Char) : List Char → Bool
  | [] => s.isEmpty
  | c :: rest => s.isPrefixOf (c :: rest) || occursIn s rest

/-- Cut at the first occurrence of the nonempty separator `s`: returns
`(prefixWithSep, suffix)` where `prefixWithSep` ends with `s`, or `none`
when `s` does not occur. -/
def breakOnSep (s : List Char) : List Char → Option (List Char × List Char)
  | [] => none
  | c :: rest =>
    if !s.isEmpty && s.isPrefixOf (c :: rest) then
      some (s, (c :: rest).drop s.length)
    else
      match breakOnSep s rest with
      | some (pre, suf) => some (c :: pre, suf)
      | none => none

/-- Split on every occurrence of the separator `s`, keeping `s` attached to
the end of the preceding piece; fuel-structural (fuel = length). -/
def splitOnSepAux (s : List Char) : Nat → List Char → List (List Char)
  | 0, content => [content]
  | fuel + 1, content =>
    match breakOnSep s content with
    | none => [content]
    | some (pre, suf) => pre :: splitOnSepAux s fuel suf

/-- Modelled from the spec: step 2 of Phase A (§4.3): split `content` on
the separator `s`, preserving `s` (attached to each non-terminal piece);
the empty separator means "split between every character"; empty pieces
are dropped so the concatenation of the pieces is `content`. -/
def splitKeep (content s : List Char) : List (List Char) :=
  if s.isEmpty then content.map (fun c => [c])
  else (splitOnSepAux s content.length content).filter (fun p => !p.isEmpty)

/-- Modelled from the spec: Phase A of the recursive character splitter
(§4.3), which is not in the source tree.  Walk the separator list in
priority order; the first separator occurring in the content (or the last
one as fallback) splits it; pieces shorter than `chunk_size` are kept,
pieces produced by the terminal empty separator are kept as-is, other long
pieces recurse with the lower-priority separators; an empty separator list
keeps the content atomic.  Fuel-structural (fuel = number of separators). -/
def splitTextAux (cs : Nat) : Nat → List (List Char) → List Char → List (List Char)
  | 0, _, content => [content]
  | fuel + 1, seps, content =>
    match seps with
    | [] => [content]
    | s :: rest =>
      if occursIn s content ∨ rest = [] then
        (splitKeep content s).flatMap (fun p =>
          if p.length < cs then [p]
          else if s.isEmpty then [p]
          else splitTextAux cs fuel rest p)
      else splitTextAux cs fuel rest content

/-- The default separator hierarchy of §4.3. -/
def defaultSeparators : List (List Char) := [['\n', '\n'], ['\n'], [' '], []]

def splitTextF (cs : Nat) (content : List Char) : List (List Char) :=
  splitTextAux cs defaultSeparators.length defaultSeparators content

/-- Total length (in scalars) of the buffered fragments. -/
def bufTotal (buf : List (List Char)) : Nat := (buf.map List.length).sum

/-- Modelled from the spec: the buffer shrink of Phase B (§4.3): discard
leading fragments until the buffer length drops to at most `overlap` and
the incoming fragment of length `flen` fits in `chunk_size` (the second
condition is required by §4.3 Phase B.3, which asserts that only atomic
over-long fragments can make a chunk exceed `chunk_size`). -/
def shrinkBuf (cs ov flen : Nat) : List (List Char) → List (List Char)
  | [] => []
  | b :: rest =>
    if ov < bufTotal (b :: rest) ∨ cs < bufTotal (b :: rest) + flen then
      shrinkBuf cs ov flen rest
    else b :: rest

/-- Modelled from the spec: one step of the Phase B merge (§4.3): if
appending the fragment would exceed `chunk_size` and the buffer is
non-empty, finalize the buffer as a chunk and shrink it; then append the
fragment.  Fragments keep their own separators, so the joining separator is
the empty string. -/
def mergeStep (cs ov : Nat) (st : List (List Char) × List (List Char))
    (f : List Char) : List (List Char) × List (List Char) :=
  if cs < bufTotal st.2 + f.length ∧ st.2 ≠ [] then
    (st.1 ++ [st.2.flatten], shrinkBuf cs ov f.length st.2 ++ [f])
  else (st.1, st.2 ++ [f])

/-- Modelled from the spec: Phase B of §4.3: walk the fragments
left-to-right merging them into chunks with overlap; a non-empty final
buffer becomes the last chunk. -/
def mergeSplits (cs ov : Nat) (frags : List (List Char)) : List (List Char) :=
  let st := frags.foldl (mergeStep cs ov) ([], [])
  if st.2 = [] then st.1 else st.1 ++ [st.2.flatten]

/-- Modelled from the spec: `split_recursive(content, chunk_size)` of
§4.3 with default separators and `overlap = chunk_size / 3`; empty content
yields no chunks. -/
def recursiveSplitContent (content : List Char) (cs : Nat) : List (List Char) :=
  if content.isEmpty then []
  else mergeSplits cs (cs / 3) (splitTextF cs content)

/-- Modelled from the spec: `Document::recursive_character_splitter` of §6
(the Rust implementation is not in the source tree).  Validates
`chunk_size > 0` before any work; each chunk carries a clone of the
metadata. -/
def recursiveCharacterSplitter (d : Document) (chunkSize : Int) :
    Except PipelineError (List Document) :=
  if chunkSize ≤ 0 then .error (.invalidArgument "chunk_size" chunkSize)
  else .ok ((recursiveSplitContent d.content chunkSize.toNat).map
    (fun c => { content := c, metadata := d.metadata }))

/-- Modelled from the spec: `clean_and_split(docs, chunk_size)` of §4.4
(the Rust implementation is not in the source tree).  Validates once at
entry; per document, applies the fixed cleaner pipeline (the cleaners come
from `post_processors.py`) and then the recursive splitter, concatenating
the chunk lists in input order with cloned metadata. -/
def cleanAndSplit (docs : List Document) (chunkSize : Int) :
    Except PipelineError (List Document) :=
  if chunkSize ≤ 0 then .error (.invalidArgument "chunk_size" chunkSize)
  else .ok (docs.flatMap (fun d =>
    (recursiveSplitContent (cleanContent d.content) chunkSize.toNat).map
      (fun c => { content := c, metadata := d.metadata })))

/-- Spec-side reading of the whitespace collapse of C7: scanning left to
right, a space followed by another space is dropped, so each run of two or
more spaces collapses to its last space. -/
def collapseSpacesSpec (l : List Char) : List Char :=
  l.foldr (fun c acc => if c = ' ' ∧ acc.head? = some ' ' then acc else c :: acc) []

/-- `clean_extra_whitespace` as the spec sentence describes it: replace
newlines and non-breaking spaces by spaces, collapse space runs, trim. -/
def cewSpec (l : List Char) : List Char :=
  pyStrip (collapseSpacesSpec (subNlNbsp l))

/-- Number of fields of Python `line.split(" ")` stated arithmetically:
one more than the number of space characters (empty fields included). -/
def spaceFieldCount (l : List Char) : Nat := l.count ' ' + 1

/-- The amended per-paragraph behavior of `group_broken_paragraphs` (C9):
blank paragraphs are dropped; paragraphs starting (after stripping) with a
lone bullet or with `e` + whitespace go to the bullet grouper; otherwise,
if every `para_split` piece — stripped of surrounding whitespace first, as
in the source's `line.strip().split(" ")` — has fewer than five
single-space-separated fields (empty fields counted), the non-blank pieces
are kept as-is, else the paragraph's whitespace runs containing a newline
collapse to single spaces. -/
def processParaSpec (para : List Char) : List (List Char) :=
  if (pyStrip para).isEmpty then []
  else if bulletsMatch (pyStrip para) ∨ eBulletMatch (pyStrip para) then
    group_bullet_paragraph para
  else if (paraSplit para).all (fun piece => spaceFieldCount (pyStrip piece) < 5) then
    (paraSplit para).filter (fun piece => !(pyStrip piece).isEmpty)
  else [collapseNLRuns para]

/-- The amended description of `group_broken_paragraphs` assembled over
the double-boundary paragraphs, joined with a blank line. -/
def gbpSpec (text : List Char) : List Char :=
  joinNN ((doubleParaSplit text).flatMap processParaSpec)

/-- The claim's literal notion of the "lines" of a paragraph: split on
single-paragraph boundaries only, i.e. at every maximal whitespace run
containing a newline (no bullet splitting, no captured separators).
Fuel-structural (fuel = length). -/
def paraBoundaryLinesAux : Nat → List Char → List (List Char)
  | 0, l => [l]
  | fuel + 1, l =>
    match l with
    | [] => [[]]
    | c :: rest =>
      if isPySpace c then
        let run := List.takeWhile isPySpace (c :: rest)
        let after := List.dropWhile isPySpace (c :: rest)
        if run.contains '\n' then [] :: paraBoundaryLinesAux fuel after
        else consRun run (paraBoundaryLinesAux fuel after)
      else consHead c (paraBoundaryLinesAux fuel rest)

def paraBoundaryLines (l : List Char) : List (List Char) :=
  paraBoundaryLinesAux l.length l

/-- Whitespace-separated tokens of a string (Python `str.split()` with no
argument): the maximal non-whitespace runs. -/
def wsTokens (l : List Char) : List (List Char) :=
  (l.foldr (fun c acc => if isPySpace c then [] :: acc else consHead c acc) [[]]).filter
    (fun t => !t.isEmpty)

/-! ## Theorems -/

theorem collapseSpacesSpec_cons (c : Char) (l : List Char) :
    collapseSpacesSpec (c :: l) =
      if c = ' ' ∧ (collapseSpacesSpec l).head? = some ' ' then collapseSpacesSpec l
      else c :: collapseSpacesSpec l := rfl

theorem collapseSpacesSpec_head (d : Char) (rest : List Char) :
    (collapseSpacesSpec (d :: rest)).head? = some d := by
  rw [collapseSpacesSpec_cons]
  by_cases h : d = ' ' ∧ (collapseSpacesSpec rest).head? = some ' '
  · rw [if_pos h, h.2, h.1]
  · rw [if_neg h]; rfl

theorem collapseSpaceRuns_eq_spec : ∀ l, collapseSpaceRuns l = collapseSpacesSpec l
  | [] => rfl
  | [c] => by
    rw [collapseSpacesSpec_cons]
    have : (collapseSpacesSpec ([] : List Char)).head? = none := rfl
    rw [this]
    simp [collapseSpaceRuns, collapseSpacesSpec]
  | c :: d :: rest => by
    have ih := collapseSpaceRuns_eq_spec (d :: rest)
    have hh := collapseSpacesSpec_head d rest
    rw [collapseSpacesSpec_cons, hh]
    unfold collapseSpaceRuns
    by_cases h : c = ' ' ∧ d = ' '
    · rw [if_pos h, ih, if_pos ⟨h.1, by rw [h.2]⟩]
    · rw [if_neg h, ih, if_neg (by rintro ⟨h1, h2⟩; exact h ⟨h1, by injection h2⟩)]

/-- Claim C7: for every input string, `clean_extra_whitespace` replaces
each newline or non-breaking space with a single space, then collapses
every run of two or more spaces into one space, then trims leading and
trailing whitespace; in particular it maps `"ITEM 1.     BUSINESS "` to
`"ITEM 1. BUSINESS"`. -/
theorem clean_extra_whitespace_spec :
    (∀ l, clean_extra_whitespace l = cewSpec l) ∧
    clean_extra_whitespace "ITEM 1.     BUSINESS ".toList = "ITEM 1. BUSINESS".toList :=
  ⟨fun l => by unfold clean_extra_whitespace cewSpec; rw [collapseSpaceRuns_eq_spec],
   by decide⟩

/-- Claim C8: `clean_non_ascii_chars` is idempotent and every code unit of
its result lies in the ASCII range `[0x00, 0x7F]`. -/
theorem clean_non_ascii_chars_idempotent_ascii :
    ∀ l, clean_non_ascii_chars (clean_non_ascii_chars l) = clean_non_ascii_chars l ∧
      ∀ c ∈ clean_non_ascii_chars l, c.toNat ≤ 0x7F := by
  intro l
  constructor
  · simp [clean_non_ascii_chars, List.filter_filter]
  · intro c hc
    have := (List.mem_filter.mp hc).2
    simpa using this

/-- Claim C4 (evaluation at the failing input): the full cleaner pipeline
is not idempotent after one round: on `"e hi"` one application yields
`"· hi"` (the e-bullet rewrite introduces U+00B7), while a second
application strips the `·` again, so the trimmed results differ. -/
theorem cleaner_pipeline_not_idempotent :
    cleanContent "e hi".toList = Char.ofNat 0xB7 :: " hi".toList ∧
    cleanContent (cleanContent "e hi".toList) = " hi".toList ∧
    pyStrip (cleanContent (cleanContent "e hi".toList)) ≠
      pyStrip (cleanContent "e hi".toList) := by decide

/-- Claim C10: on the pure-ASCII input `"e hi"` (a paragraph beginning
with `e` followed by whitespace), `group_broken_paragraphs`,
`blank_line_grouper` and the full cleaner pipeline all return a string
containing the non-ASCII character U+00B7. -/
theorem groupers_introduce_non_ascii :
    (∀ c ∈ "e hi".toList, c.toNat ≤ 0x7F) ∧
    eBulletMatch "e hi".toList = true ∧
    Char.ofNat 0xB7 ∈ group_broken_paragraphs "e hi".toList ∧
    Char.ofNat 0xB7 ∈ blank_line_grouper "e hi".toList ∧
    Char.ofNat 0xB7 ∈ cleanContent "e hi".toList ∧
    0x7F < (Char.ofNat 0xB7).toNat := by decide

theorem splitOnSpace_ne_nil : ∀ l : List Char, splitOnSpace l ≠ []
  | [] => by simp [splitOnSpace]
  | c :: rest => by
    unfold splitOnSpace
    by_cases h : c = ' '
    · rw [if_pos h]; simp
    · rw [if_neg h]
      cases hs : splitOnSpace rest with
      | nil => exact absurd hs (splitOnSpace_ne_nil rest)
      | cons p ps => simp [consHead]

theorem splitOnSpace_length : ∀ l : List Char, (splitOnSpace l).length = l.count ' ' + 1
  | [] => by simp [splitOnSpace]
  | c :: rest => by
    unfold splitOnSpace
    by_cases h : c = ' '
    · rw [if_pos h]
      simp [splitOnSpace_length rest, List.count_cons, h]
    · rw [if_neg h]
      cases hs : splitOnSpace rest with
      | nil => exact absurd hs (splitOnSpace_ne_nil rest)
      | cons p ps =>
        have := splitOnSpace_length rest
        rw [hs] at this
        simp [consHead, List.count_cons, h] at this ⊢
        simpa [Ne.symm h] using this

theorem gbpStep_eq (acc : List (List Char)) (para : List Char) :
    gbpStep acc para = acc ++ processParaSpec para := by
  unfold gbpStep processParaSpec
  have hcount : (fun line => decide ((splitOnSpace (pyStrip line)).length < 5)) =
      (fun piece => decide (spaceFieldCount (pyStrip piece) < 5)) := by
    funext x
    rw [splitOnSpace_length]
    rfl
  by_cases h0 : (pyStrip para).isEmpty
  · simp [h0]
  · rw [if_neg h0, if_neg h0]
    by_cases h1 : bulletsMatch (pyStrip para) ∨ eBulletMatch (pyStrip para)
    · rw [if_pos h1, if_pos h1]
    · rw [if_neg h1, if_neg h1]
      rw [hcount]
      by_cases h2 : (paraSplit para).all (fun piece => decide (spaceFieldCount (pyStrip piece) < 5))
      · rw [if_pos h2, if_pos h2]
      · rw [if_neg h2, if_neg h2]

theorem foldl_gbpStep : ∀ (ps : List (List Char)) (acc : List (List Char)),
    ps.foldl gbpStep acc = acc ++ ps.flatMap processParaSpec
  | [], acc => by simp
  | p :: ps, acc => by
    rw [List.foldl_cons, foldl_gbpStep ps, gbpStep_eq]
    simp

/-- Claim C9 (amended): `group_broken_paragraphs` splits on
double-paragraph boundaries and, per non-blank paragraph not starting with
a lone bullet or `e`+whitespace, keeps the non-blank `para_split` pieces
(split at single-paragraph boundaries and at bullet characters, separators
captured as pieces) when every piece, after stripping surrounding
whitespace, has fewer than 5 single-space-split fields (empty fields
counted), otherwise collapses the paragraph's newline-containing
whitespace runs into single spaces; pieces are joined with a blank line. -/
theorem group_broken_paragraphs_amended :
    ∀ text, group_broken_paragraphs text = gbpSpec text := by
  intro text
  unfold group_broken_paragraphs gbpSpec
  rw [foldl_gbpStep]
  rfl

/-- Claim C9 (counterexample): on `"a  b  c\nd"` the unique paragraph is
non-blank and starts with neither a bullet nor `e`+whitespace, and every
line (split on single-paragraph boundaries) has fewer than 5
whitespace-separated tokens, yet `group_broken_paragraphs` does not keep
the lines as separate pieces joined by blank lines — it collapses the
newline instead, because the code counts fields of `line.strip().split(" ")`
(five fields for `"a  b  c"`, empties included), not whitespace-separated
tokens. -/
theorem group_broken_paragraphs_claim_false :
    (pyStrip "a  b  c\nd".toList ≠ []) ∧
    doubleParaSplit "a  b  c\nd".toList = ["a  b  c\nd".toList] ∧
    bulletsMatch (pyStrip "a  b  c\nd".toList) = false ∧
    eBulletMatch (pyStrip "a  b  c\nd".toList) = false ∧
    paraBoundaryLines "a  b  c\nd".toList = ["a  b  c".toList, "d".toList] ∧
    (∀ line ∈ paraBoundaryLines "a  b  c\nd".toList, (wsTokens line).length < 5) ∧
    group_broken_paragraphs "a  b  c\nd".toList = "a  b  c d".toList ∧
    group_broken_paragraphs "a  b  c\nd".toList ≠
      joinNN (paraBoundaryLines "a  b  c\nd".toList) := by decide

theorem splitKeep_nil_sep_length {content p : List Char}
    (hp : p ∈ splitKeep content []) : p.length = 1 := by
  unfold splitKeep at hp
  simp at hp
  obtain ⟨c, _, rfl⟩ := hp
  rfl

theorem splitTextAux_length_le (cs : Nat) (hcs : 1 ≤ cs) :
    ∀ (fuel : Nat) (seps : List (List Char)) (content : List Char),
      seps.getLast? = some [] → seps.length ≤ fuel →
      ∀ f ∈ splitTextAux cs fuel seps content, f.length ≤ cs := by
  intro fuel
  induction fuel with
  | zero =>
    intro seps content hlast hlen f _
    rw [List.length_eq_zero.mp (Nat.le_zero.mp hlen)] at hlast
    exact absurd hlast (by simp)
  | succ fuel ih =>
    intro seps content hlast hlen f hf
    match seps with
    | [] => exact absurd hlast (by simp)
    | s :: rest =>
      simp only [splitTextAux] at hf
      by_cases hocc : occursIn s content = true ∨ rest = []
      · rw [if_pos hocc] at hf
        rw [List.mem_flatMap] at hf
        obtain ⟨p, hp, hfp⟩ := hf
        by_cases hlt : p.length < cs
        · rw [if_pos hlt] at hfp
          rw [List.mem_singleton.mp hfp]
          exact Nat.le_of_lt hlt
        · rw [if_neg hlt] at hfp
          by_cases hse : s.isEmpty
          · rw [if_pos hse] at hfp
            rw [List.mem_singleton.mp hfp]
            rw [List.isEmpty_iff.mp hse] at hp
            rw [splitKeep_nil_sep_length hp]
            exact hcs
          · rw [if_neg hse] at hfp
            have hrest : rest ≠ [] := by
              intro hr
              rw [hr] at hlast
              simp at hlast
              exact hse (by simp [hlast])
            match rest, hrest with
            | r :: rs, _ =>
              exact ih (r :: rs) p (by rw [List.getLast?_cons_cons] at hlast; exact hlast)
                (by simpa using Nat.le_of_succ_le_succ hlen) f hfp
      · rw [if_neg hocc] at hf
        push_neg at hocc
        match rest, hocc.2 with
        | r :: rs, _ =>
          exact ih (r :: rs) content (by rw [List.getLast?_cons_cons] at hlast; exact hlast)
            (by simpa using Nat.le_of_succ_le_succ hlen) f hf

theorem bufTotal_append (a b : List (List Char)) :
    bufTotal (a ++ b) = bufTotal a + bufTotal b := by
  simp [bufTotal]

theorem length_flatten_eq_bufTotal (buf : List (List Char)) :
    buf.flatten.length = bufTotal buf := by
  simp [bufTotal]

theorem shrinkBuf_fits (cs ov flen : Nat) (hf : flen ≤ cs) :
    ∀ buf, bufTotal (shrinkBuf cs ov flen buf) + flen ≤ cs := by
  intro buf
  induction buf with
  | nil => simpa [shrinkBuf, bufTotal] using hf
  | cons b rest ih =>
    unfold shrinkBuf
    by_cases h : ov < bufTotal (b :: rest) ∨ cs < bufTotal (b :: rest) + flen
    · rw [if_pos h]; exact ih
    · rw [if_neg h]
      push_neg at h
      exact h.2

theorem mergeStep_inv (cs ov : Nat) (st : List (List Char) × List (List Char))
    (f : List Char) (hf : f.length ≤ cs)
    (h1 : ∀ c ∈ st.1, c.length ≤ cs) (h2 : bufTotal st.2 ≤ cs) :
    (∀ c ∈ (mergeStep cs ov st f).1, c.length ≤ cs) ∧
      bufTotal (mergeStep cs ov st f).2 ≤ cs := by
  unfold mergeStep
  by_cases h : cs < bufTotal st.2 + f.length ∧ st.2 ≠ []
  · rw [if_pos h]
    constructor
    · intro c hc
      rcases List.mem_append.mp hc with hc | hc
      · exact h1 c hc
      · rw [List.mem_singleton.mp hc, length_flatten_eq_bufTotal]
        exact h2
    · rw [bufTotal_append]
      have : bufTotal [f] = f.length := by simp [bufTotal]
      rw [this]
      exact shrinkBuf_fits cs ov f.length hf st.2
  · rw [if_neg h]
    refine ⟨h1, ?_⟩
    rw [bufTotal_append]
    have hb : bufTotal [f] = f.length := by simp [bufTotal]
    rw [hb]
    by_cases hnil : st.2 = []
    · rw [hnil]
      simpa [bufTotal] using hf
    · push_neg at h
      exact Nat.le_of_not_lt (fun hlt => hnil (h hlt))

theorem foldl_mergeStep_inv (cs ov : Nat) :
    ∀ (frags : List (List Char)) (st : List (List Char) × List (List Char)),
      (∀ g ∈ frags, g.length ≤ cs) →
      (∀ c ∈ st.1, c.length ≤ cs) → bufTotal st.2 ≤ cs →
      (∀ c ∈ (frags.foldl (mergeStep cs ov) st).1, c.length ≤ cs) ∧
        bufTotal (frags.foldl (mergeStep cs ov) st).2 ≤ cs := by
  intro frags
  induction frags with
  | nil => intro st _ h1 h2; exact ⟨h1, h2⟩
  | cons g gs ih =>
    intro st hg h1 h2
    rw [List.foldl_cons]
    have step := mergeStep_inv cs ov st g (hg g (by simp)) h1 h2
    exact ih (mergeStep cs ov st g) (fun x hx => hg x (by simp [hx])) step.1 step.2

theorem mergeSplits_le (cs ov : Nat) (frags : List (List Char))
    (hf : ∀ g ∈ frags, g.length ≤ cs) :
    ∀ c ∈ mergeSplits cs ov frags, c.length ≤ cs := by
  intro c hc
  unfold mergeSplits at hc
  have inv := foldl_mergeStep_inv cs ov frags ([], []) hf (by simp) (by simp [bufTotal])
  by_cases hb : (frags.foldl (mergeStep cs ov) ([], [])).2 = []
  · rw [if_pos hb] at hc
    exact inv.1 c hc
  · rw [if_neg hb] at hc
    rcases List.mem_append.mp hc with hc | hc
    · exact inv.1 c hc
    · rw [List.mem_singleton.mp hc, length_flatten_eq_bufTotal]
      exact inv.2

/-- Claim C1: for every document and every `chunk_size > 0`, every chunk
returned by the recursive character splitter has content of length at most
`chunk_size`, counted in Unicode scalar values. -/
theorem rcs_chunks_le_chunk_size (d : Document) (chunkSize : Int)
    (chunks : List Document) (hpos : 0 < chunkSize)
    (h : recursiveCharacterSplitter d chunkSize = .ok chunks) :
    ∀ c ∈ chunks, c.content.length ≤ chunkSize.toNat := by
  have hne : ¬ chunkSize ≤ 0 := not_le.mpr hpos
  unfold recursiveCharacterSplitter at h
  rw [if_neg hne] at h
  have hmap := Except.ok.inj h
  intro c hc
  rw [← hmap] at hc
  obtain ⟨content, hcontent, rfl⟩ := List.mem_map.mp hc
  show content.length ≤ chunkSize.toNat
  unfold recursiveSplitContent at hcontent
  by_cases hempty : d.content.isEmpty
  · rw [if_pos hempty] at hcontent
    exact absurd hcontent (List.not_mem_nil content)
  · rw [if_neg hempty] at hcontent
    have h1 : 1 ≤ chunkSize.toNat := by omega
    refine mergeSplits_le chunkSize.toNat (chunkSize.toNat / 3) _ ?_ content hcontent
    intro g hg
    exact splitTextAux_length_le chunkSize.toNat h1 defaultSeparators.length
      defaultSeparators d.content (by decide) (Nat.le_refl _) g hg

/-- Witness for C1 at a concrete input. -/
theorem rcs_chunks_le_chunk_size_witness :
    (0 : Int) < 4 ∧
    ∀ c ∈ [Document.mk "aa ".toList [("k", "v")], Document.mk "bb ".toList [("k", "v")],
        Document.mk "cc".toList [("k", "v")]], c.content.length ≤ (4 : Int).toNat :=
  ⟨by decide,
   rcs_chunks_le_chunk_size ⟨"aa bb cc".toList, [("k", "v")]⟩ 4 _ (by decide) (by rfl)⟩

theorem splitEveryNAux_nil (n : Nat) : ∀ fuel, splitEveryNAux n fuel [] = []
  | 0 => rfl
  | _ + 1 => by simp [splitEveryNAux]

theorem splitEveryNAux_flatten (n : Nat) (hn : 1 ≤ n) :
    ∀ (fuel : Nat) (l : List Char), l.length ≤ fuel →
      (splitEveryNAux n fuel l).flatten = l := by
  intro fuel
  induction fuel with
  | zero =>
    intro l hl
    rw [List.length_eq_zero.mp (Nat.le_zero.mp hl)]
    rfl
  | succ fuel ih =>
    intro l hl
    by_cases he : l.isEmpty
    · rw [List.isEmpty_iff.mp he]
      rfl
    · simp only [splitEveryNAux, if_neg he, List.flatten_cons]
      rw [ih (l.drop n) (by rw [List.length_drop]; omega)]
      exact List.take_append_drop n l

theorem splitEveryNAux_length (n : Nat) (hn : 1 ≤ n) :
    ∀ (fuel : Nat) (l : List Char), l.length ≤ fuel →
      (splitEveryNAux n fuel l).length = (l.length + n - 1) / n := by
  intro fuel
  induction fuel with
  | zero =>
    intro l hl
    rw [List.length_eq_zero.mp (Nat.le_zero.mp hl)]
    show (0 : Nat) = ((0 : Nat) + n - 1) / n
    exact (Nat.div_eq_of_lt (by omega)).symm
  | succ fuel ih =>
    intro l hl
    by_cases he : l.isEmpty
    · rw [List.isEmpty_iff.mp he]
      rw [splitEveryNAux_nil]
      show (0 : Nat) = ((0 : Nat) + n - 1) / n
      exact (Nat.div_eq_of_lt (by omega)).symm
    · have hlen : 1 ≤ l.length := by
        cases l with
        | nil => simp at he
        | cons a as => simp
      simp only [splitEveryNAux, if_neg he, List.length_cons]
      rw [ih (l.drop n) (by rw [List.length_drop]; omega), List.length_drop]
      have hrw : l.length + n - 1 = (l.length - 1) + n := by omega
      rw [hrw, Nat.add_div_right _ (by omega : 0 < n)]
      by_cases hc : l.length ≤ n
      · have h1 : l.length - n = 0 := by omega
        rw [h1]
        have h2 : ((0 : Nat) + n - 1) / n = 0 := Nat.div_eq_of_lt (by omega)
        have h3 : (l.length - 1) / n = 0 := Nat.div_eq_of_lt (by omega)
        rw [h2, h3]
      · have h1 : l.length - n + n - 1 = l.length - 1 := by omega
        rw [h1]

theorem splitEveryNAux_mem (n : Nat) (hn : 1 ≤ n) :
    ∀ (fuel : Nat) (l : List Char), l.length ≤ fuel →
      ∀ c ∈ splitEveryNAux n fuel l, c.length ≤ n ∧ c ≠ [] := by
  intro fuel
  induction fuel with
  | zero =>
    intro l _ c hc
    simp [splitEveryNAux] at hc
  | succ fuel ih =>
    intro l hl c hc
    by_cases he : l.isEmpty
    · simp [splitEveryNAux, he] at hc
    · simp only [splitEveryNAux, if_neg he, List.mem_cons] at hc
      rcases hc with hc | hc
      · subst hc
        constructor
        · rw [List.length_take]
          omega
        · match l, he, n, hn with
          | a :: as, _, m + 1, _ => simp
      · exact ih (l.drop n) (by rw [List.length_drop]; omega) c hc

theorem splitEveryNAux_getD (n : Nat) (hn : 1 ≤ n) :
    ∀ (fuel : Nat) (l : List Char), l.length ≤ fuel →
      ∀ i, i + 1 < (splitEveryNAux n fuel l).length →
        ((splitEveryNAux n fuel l).getD i []).length = n := by
  intro fuel
  induction fuel with
  | zero =>
    intro l _ i hi
    simp [splitEveryNAux] at hi
  | succ fuel ih =>
    intro l hl i hi
    by_cases he : l.isEmpty
    · rw [List.isEmpty_iff.mp he, splitEveryNAux_nil] at hi
      simp at hi
    · simp only [splitEveryNAux, if_neg he, List.length_cons] at hi ⊢
      cases i with
      | zero =>
        have hne : splitEveryNAux n fuel (l.drop n) ≠ [] := by
          intro h0
          rw [h0] at hi
          simp at hi
        have hdne : l.drop n ≠ [] := by
          intro hd
          rw [hd, splitEveryNAux_nil] at hne
          exact hne rfl
        have hlt : n < l.length := List.length_lt_of_drop_ne_nil hdne
        show (List.take n l).length = n
        rw [List.length_take]
        omega
      | succ i =>
        rw [List.getD_cons_succ]
        exact ih (l.drop n) (by rw [List.length_drop]; omega) i (by omega)

/-- Claim C6: for every document with non-empty content and every `n > 0`,
`split_on_num_characters` walks the content by Unicode scalar values
producing `ceil(length / n)` chunks whose concatenation is the content,
each of length exactly `n` except possibly the last (which is non-empty
and holds the remainder), all carrying the document's metadata. -/
theorem split_on_num_characters_spec (d : Document) (n : Int)
    (hn : 0 < n) (_hnonempty : d.content ≠ []) :
    splitOnNumCharacters d n =
      .ok ((splitEveryN n.toNat d.content).map
        (fun c => { content := c, metadata := d.metadata })) ∧
    (splitEveryN n.toNat d.content).length = (d.content.length + n.toNat - 1) / n.toNat ∧
    (splitEveryN n.toNat d.content).flatten = d.content ∧
    (∀ c ∈ splitEveryN n.toNat d.content, c.length ≤ n.toNat ∧ c ≠ []) ∧
    (∀ i, i + 1 < (splitEveryN n.toNat d.content).length →
      ((splitEveryN n.toNat d.content).getD i []).length = n.toNat) := by
  have h1 : 1 ≤ n.toNat := by omega
  refine ⟨?_, ?_, ?_, ?_, ?_⟩
  · unfold splitOnNumCharacters
    rw [if_neg (not_le.mpr hn)]
  · exact splitEveryNAux_length n.toNat h1 _ _ (Nat.le_refl _)
  · exact splitEveryNAux_flatten n.toNat h1 _ _ (Nat.le_refl _)
  · exact splitEveryNAux_mem n.toNat h1 _ _ (Nat.le_refl _)
  · exact splitEveryNAux_getD n.toNat h1 _ _ (Nat.le_refl _)

/-- Witness for C6: twenty `'A'`s split with `n = 5` give four `"AAAAA"`
documents carrying the original metadata (scenario S1). -/
theorem split_on_num_characters_spec_witness :
    ((0 : Int) < 5) ∧
    ((Document.mk (List.replicate 20 'A') [("Hello", "World")]).content ≠ []) ∧
    (splitEveryN (5 : Int).toNat
        (Document.mk (List.replicate 20 'A') [("Hello", "World")]).content).length =
      ((Document.mk (List.replicate 20 'A') [("Hello", "World")]).content.length +
        (5 : Int).toNat - 1) / (5 : Int).toNat ∧
    splitOnNumCharacters ⟨List.replicate 20 'A', [("Hello", "World")]⟩ 5 =
      .ok [⟨List.replicate 5 'A', [("Hello", "World")]⟩,
        ⟨List.replicate 5 'A', [("Hello", "World")]⟩,
        ⟨List.replicate 5 'A', [("Hello", "World")]⟩,
        ⟨List.replicate 5 'A', [("Hello", "World")]⟩] :=
  ⟨by decide, by decide,
   (split_on_num_characters_spec ⟨List.replicate 20 'A', [("Hello", "World")]⟩ 5
     (by decide) (by decide)).2.1,
   by rfl⟩

/-- Claim C2: splitters and the batch pipeline emit chunks whose metadata
equals the source document's metadata, and cleaner calls never modify
metadata. -/
theorem metadata_preserved (d : Document) (n cs : Int) (docs : List Document) :
    (∀ chunks, splitOnNumCharacters d n = .ok chunks →
      ∀ c ∈ chunks, c.metadata = d.metadata) ∧
    (∀ chunks, recursiveCharacterSplitter d cs = .ok chunks →
      ∀ c ∈ chunks, c.metadata = d.metadata) ∧
    (∀ out, cleanAndSplit docs cs = .ok out →
      ∀ c ∈ out, ∃ src ∈ docs, c.metadata = src.metadata) ∧
    (∀ f : List Char → List Char, (applyCleanerDoc f d).metadata = d.metadata) := by
  refine ⟨?_, ?_, ?_, fun f => rfl⟩
  · intro chunks h c hc
    unfold splitOnNumCharacters at h
    by_cases hn : n ≤ 0
    · rw [if_pos hn] at h
      exact Except.noConfusion h
    · rw [if_neg hn] at h
      rw [← Except.ok.inj h] at hc
      obtain ⟨x, _, rfl⟩ := List.mem_map.mp hc
      rfl
  · intro chunks h c hc
    unfold recursiveCharacterSplitter at h
    by_cases hn : cs ≤ 0
    · rw [if_pos hn] at h
      exact Except.noConfusion h
    · rw [if_neg hn] at h
      rw [← Except.ok.inj h] at hc
      obtain ⟨x, _, rfl⟩ := List.mem_map.mp hc
      rfl
  · intro out h c hc
    unfold cleanAndSplit at h
    by_cases hn : cs ≤ 0
    · rw [if_pos hn] at h
      exact Except.noConfusion h
    · rw [if_neg hn] at h
      rw [← Except.ok.inj h] at hc
      rw [List.mem_flatMap] at hc
      obtain ⟨src, hsrc, hc⟩ := hc
      obtain ⟨x, _, rfl⟩ := List.mem_map.mp hc
      exact ⟨src, hsrc, rfl⟩

/-- Witness for C2 at a concrete split. -/
theorem metadata_preserved_witness :
    ∀ c ∈ [Document.mk ['A', 'A'] [("x", "y")], Document.mk ['A', 'A'] [("x", "y")]],
      c.metadata = (Document.mk ['A', 'A', 'A', 'A'] [("x", "y")]).metadata :=
  (metadata_preserved ⟨['A', 'A', 'A', 'A'], [("x", "y")]⟩ 2 2 []).1
    [⟨['A', 'A'], [("x", "y")]⟩, ⟨['A', 'A'], [("x", "y")]⟩] (by rfl)

/-- Claim C3: a document with empty content yields an empty chunk list
from both splitters and from the batch pipeline (not a single empty
chunk). -/
theorem empty_content_yields_no_chunks (m : List (String × String)) (cs : Int)
    (hpos : 0 < cs) :
    splitOnNumCharacters ⟨[], m⟩ cs = .ok [] ∧
    recursiveCharacterSplitter ⟨[], m⟩ cs = .ok [] ∧
    cleanAndSplit [⟨[], m⟩] cs = .ok [] := by
  have hne : ¬ cs ≤ 0 := not_le.mpr hpos
  refine ⟨?_, ?_, ?_⟩
  · unfold splitOnNumCharacters
    rw [if_neg hne]
    rfl
  · unfold recursiveCharacterSplitter
    rw [if_neg hne]
    rfl
  · unfold cleanAndSplit
    rw [if_neg hne]
    have hclean : cleanContent ([] : List Char) = [] := by decide
    simp only [List.flatMap_cons, List.flatMap_nil, List.append_nil]
    rw [hclean]
    rfl

/-- Witness for C3 (scenario S6). -/
theorem empty_content_yields_no_chunks_witness :
    splitOnNumCharacters ⟨[], [("id", "0")]⟩ 100 = .ok [] ∧
    recursiveCharacterSplitter ⟨[], [("id", "0")]⟩ 100 = .ok [] ∧
    cleanAndSplit [⟨[], [("id", "0")]⟩] 100 = .ok [] :=
  empty_content_yields_no_chunks [("id", "0")] 100 (by decide)

/-- Claim C5: `chunk_size ≤ 0` makes every splitter and the batch pipeline
fail with `InvalidArgument` (carrying the parameter name and value) before
any work, while `chunk_size > 0` never fails. -/
theorem invalid_chunk_size_rejected (d : Document) (docs : List Document) (cs : Int) :
    (cs ≤ 0 →
      splitOnNumCharacters d cs = .error (.invalidArgument "n" cs) ∧
      recursiveCharacterSplitter d cs = .error (.invalidArgument "chunk_size" cs) ∧
      cleanAndSplit docs cs = .error (.invalidArgument "chunk_size" cs)) ∧
    (0 < cs →
      (∃ r, splitOnNumCharacters d cs = .ok r) ∧
      (∃ r, recursiveCharacterSplitter d cs = .ok r) ∧
      (∃ r, cleanAndSplit docs cs = .ok r)) := by
  constructor
  · intro h
    refine ⟨?_, ?_, ?_⟩
    · unfold splitOnNumCharacters
      rw [if_pos h]
    · unfold recursiveCharacterSplitter
      rw [if_pos h]
    · unfold cleanAndSplit
      rw [if_pos h]
  · intro h
    have hne : ¬ cs ≤ 0 := not_le.mpr h
    refine ⟨⟨(splitEveryN cs.toNat d.content).map
        (fun c => { content := c, metadata := d.metadata }), ?_⟩,
      ⟨(recursiveSplitContent d.content cs.toNat).map
        (fun c => { content := c, metadata := d.metadata }), ?_⟩,
      ⟨docs.flatMap (fun dd => (recursiveSplitContent (cleanContent dd.content) cs.toNat).map
        (fun c => { content := c, metadata := dd.metadata })), ?_⟩⟩ <;>
      simp only [splitOnNumCharacters, recursiveCharacterSplitter, cleanAndSplit, if_neg hne]

/-- Witness for C5 at concrete chunk sizes. -/
theorem invalid_chunk_size_rejected_witness :
    splitOnNumCharacters ⟨['a'], []⟩ (-2) = .error (.invalidArgument "n" (-2)) ∧
    (∃ r, cleanAndSplit [⟨['a'], []⟩] 3 = .ok r) :=
  ⟨((invalid_chunk_size_rejected ⟨['a'], []⟩ [] (-2)).1 (by decide)).1,
   ((invalid_chunk_size_rejected ⟨['a'], []⟩ [⟨['a'], []⟩] 3).2 (by decide)).2.2⟩
